import Mathlib

/-!
Verification development for the editor-integration layer of the ast-grep
structural search/rewrite tool.  The definitions below are a shallow
embedding of the Rust source:

* `crates/lsp/src/lib.rs` — the language-server backend: the versioned
  document store, diagnostics publication, the batch fix resolver
  (`compute_all_fixes`) and the apply-all-fixes command;
* `crates/napi/src/doc.rs` — the UTF-16 text buffer adapter (`Wrapper`)
  with its edit-descriptor computation (`accept_edit`,
  `pos_for_byte_offset`) and text conversions (`decode_str`,
  `encode_bytes`).

Machine integers (`u32` line/character, byte offsets, `u16` storage units)
are modelled as `Nat`; none of the verified algorithms can overflow them in
ways the claims depend on.  LSP document versions (`i32`) are modelled as
`Int`.  Client calls (logging, publishing diagnostics, applying edits) are
modelled as an explicit list of emitted effects.
-/

namespace AstGrepLsp

/-- LSP `Position`: zero-based line and character (model of `lsp_types::Position`,
whose `u32` fields are modelled as `Nat`). -/
structure Position where
  line : Nat
  character : Nat
deriving DecidableEq, Repr

/-- Strict lexicographic order on positions: the derived `Ord`/`PartialOrd`
of `lsp_types::Position` (field order: `line`, then `character`). -/
def posLt (a b : Position) : Prop :=
  a.line < b.line ∨ (a.line = b.line ∧ a.character < b.character)

instance (a b : Position) : Decidable (posLt a b) := by
  unfold posLt; infer_instance

/-- Non-strict lexicographic order on positions. -/
def posLe (a b : Position) : Prop :=
  posLt a b ∨ a = b

instance (a b : Position) : Decidable (posLe a b) := by
  unfold posLe; infer_instance

/-- LSP `Range`: half-open `[start, end)` pair of positions. -/
structure Range where
  start : Position
  «end» : Position
deriving DecidableEq, Repr

/-- Lexicographic order on the sort key `(range.start, range.end)` used by
`compute_all_fixes`'s `sort_by_key`. -/
def rangeKeyLe (a b : Range) : Prop :=
  posLt a.start b.start ∨ (a.start = b.start ∧ posLe a.«end» b.«end»)

instance (a b : Range) : Decidable (rangeKeyLe a b) := by
  unfold rangeKeyLe; infer_instance

/-- Two ranges overlap when each one starts strictly before the other ends
(the usual intersection test for half-open ranges). -/
def rangesOverlap (a b : Range) : Prop :=
  posLt a.start b.«end» ∧ posLt b.start a.«end»

instance (a b : Range) : Decidable (rangesOverlap a b) := by
  unfold rangesOverlap; infer_instance

/-- Modelled from the spec: the opaque JSON `data` payload attached to a
diagnostic (the decoder `RewriteData::from_value` lives in
`crates/lsp/src/utils.rs`, which is not part of the provided sources).
Per the spec the payload is "optional replacement text + rule id, opaque to
the client"; a payload either decodes to that shape or fails to decode. -/
inductive Value where
  /-- a payload that decodes into a rewrite: replacement text plus rule id -/
  | rewrite (fixed : String) (ruleId : String)
  /-- any JSON value that does not decode into a rewrite -/
  | other
deriving DecidableEq, Repr

/-- Modelled from the spec: decoded fix payload ("replacement text + rule id"). -/
structure RewriteData where
  fixed : String
  ruleId : String
deriving DecidableEq, Repr

/-- Modelled from the spec: `RewriteData::from_value` (in the absent
`utils.rs`) — decoding the opaque diagnostic payload, which may fail. -/
def RewriteData.from_value : Value → Option RewriteData
  | .rewrite fixed ruleId => some ⟨fixed, ruleId⟩
  | .other => none

/-- LSP `Diagnostic` as produced/consumed by the backend: range, message,
severity, rule id as code, and the opaque fix payload. -/
structure Diagnostic where
  range : Range
  message : String
  severity : Nat
  code : String
  data : Option Value
deriving DecidableEq, Repr

/-- LSP `TextEdit`: a range and its replacement text. -/
structure TextEdit where
  range : Range
  newText : String
deriving DecidableEq, Repr

/-- Boolean sort predicate fed to `mergeSort`, mirroring
`diagnostics.sort_by_key(|d| (d.range.start, d.range.end))`. -/
def diagKeyLeB (a b : Diagnostic) : Bool :=
  decide (rangeKeyLe a.range b.range)

/-- The body of the `filter_map` closure in `compute_all_fixes`, acting on
the accumulated edits together with the captured mutable `last` position:
skip a diagnostic whose range starts before `last` (`d.range.start < last`),
skip it when its `data` payload is absent (`d.data?`) or fails to decode
(`RewriteData::from_value(..)?`), and otherwise push
`TextEdit::new(d.range, rewrite_data.fixed)` and set `last = d.range.end`. -/
def fixStep (acc : List TextEdit × Position) (d : Diagnostic) :
    List TextEdit × Position :=
  if posLt d.range.start acc.2 then acc
  else
    match d.data with
    | none => acc
    | some v =>
      match RewriteData.from_value v with
      | none => acc
      | some rd => (acc.1 ++ [TextEdit.mk d.range rd.fixed], d.range.«end»)

/-- `Backend::compute_all_fixes` (lib.rs:274-305): sort the diagnostics by
`(range.start, range.end)`, then run a single `filter_map` pass carrying the
mutable `last` position (initially `Position { line: 0, character: 0 }`).
If no edits were collected the function returns `None`; otherwise it
returns a map with a single entry for the document's uri. -/
def compute_all_fixes (uri : String) (diagnostics : List Diagnostic) :
    Option (List (String × List TextEdit)) :=
  let sorted := diagnostics.mergeSort diagKeyLeB
  let stepped := sorted.foldl fixStep ([], ⟨0, 0⟩)
  let edits := stepped.1
  if edits.isEmpty then none
  else some [(uri, edits)]

/-- The spec's greedy interval-selection loop (§4.3 step 3), written as a
recursion on the sorted diagnostic list with the `last_accepted_end`
accumulator: drop a diagnostic whose range start is before
`last_accepted_end`; otherwise drop it if it carries no decodable fix
payload; otherwise accept its edit and advance `last_accepted_end` to its
range end. -/
def resolveGo (last : Position) : List Diagnostic → List TextEdit
  | [] => []
  | d :: ds =>
    if posLt d.range.start last then resolveGo last ds
    else
      match d.data with
      | none => resolveGo last ds
      | some v =>
        match RewriteData.from_value v with
        | none => resolveGo last ds
        | some rd => TextEdit.mk d.range rd.fixed :: resolveGo d.range.«end» ds

/-- The Fix Resolver contract as worded in the spec (§4.3): sort by
`(range start, range end)` ascending, run the greedy selection from the
document origin, and return nothing when zero edits were accepted —
otherwise an edit set with exactly one entry for the source document. -/
def resolveSpec (uri : String) (diagnostics : List Diagnostic) :
    Option (List (String × List TextEdit)) :=
  let sorted := diagnostics.mergeSort diagKeyLeB
  let edits := resolveGo ⟨0, 0⟩ sorted
  if edits = [] then none
  else some [(uri, edits)]

/-- The language tag a backend infers for a document (the Rust backend is
generic over `L: LSPLang`; the model uses an opaque string tag). -/
abbrev Lang := String

/-- `AstGrep::new(text, lang)` — the externally parsed tree; the shallow
embedding keeps the full text and language (the tree is a function of
those, and reparse replaces it wholesale). -/
structure Ast where
  text : String
  lang : Lang
deriving DecidableEq, Repr

/-- `VersionedAst` (lib.rs:22-25): client-supplied version plus parse root. -/
structure VersionedAst where
  version : Int
  root : Ast
deriving DecidableEq, Repr

/-- An external rule, identified by its stable id (consumed read-only). -/
structure Rule where
  id : String
deriving DecidableEq, Repr

/-- `RuleCollection` (external): resolves the rule subset applicable to a
path via `for_path`. -/
structure RuleCollection where
  forPath : String → List Rule

/-- The `DashMap<String, VersionedAst>` document store, modelled as an
association list keyed by uri with atomic whole-entry replacement. -/
abbrev Store := List (String × VersionedAst)

/-- Lookup in the document store (`map.get`). -/
def storeGet : Store → String → Option VersionedAst
  | [], _ => none
  | (k, v) :: rest, u => if u = k then some v else storeGet rest u

/-- Insert/replace in the document store (`map.insert` / `*versioned = ...`). -/
def storeInsert : Store → String → VersionedAst → Store
  | [], u, v => [(u, v)]
  | (k, w) :: rest, u, v =>
    if u = k then (k, v) :: rest else (k, w) :: storeInsert rest u v

/-- Removal from the document store (`map.remove`). -/
def storeRemove : Store → String → Store
  | [], _ => []
  | (k, w) :: rest, u => if u = k then rest else (k, w) :: storeRemove rest u

/-- `tower_lsp::lsp_types::MessageType` values used by the backend. -/
inductive MessageType where
  | error
  | info
  | log
deriving DecidableEq, Repr

/-- A `WorkspaceEdit`: the optional `changes` map from uri to edits (the
backend always leaves `document_changes` and `change_annotations` empty). -/
structure WorkspaceEdit where
  changes : Option (List (String × List TextEdit))
deriving DecidableEq, Repr

/-- An outbound client call (the suspension points of the handlers):
logging, popup messages, diagnostics publication, workspace-edit
application. -/
inductive Effect where
  | logMessage (type : MessageType) (msg : String)
  | showMessage (type : MessageType) (msg : String)
  | publishDiagnostics (uri : String) (diagnostics : List Diagnostic) (version : Option Int)
  | applyEdit (edit : WorkspaceEdit)
deriving DecidableEq, Repr

/-- The backend's configuration: workspace base path, the rule collection
(or the load error kept from startup), the external language inference
(`L::from_path` composed with `Url::to_file_path`), and the external
combined-scan-plus-conversion pipeline producing diagnostics from rules
and a tree. -/
structure Backend where
  base : String
  rules : Except String RuleCollection
  inferLang : String → Option Lang
  scan : List Rule → Ast → List Diagnostic

/-- Character-level string comparison used by the path model (equivalent to
`str::starts_with`). -/
def strStartsWith (p s : String) : Bool :=
  List.isPrefixOf p.data s.data

/-- Character-level drop on strings used by the path model. -/
def strDropChars (s : String) (n : Nat) : String :=
  ⟨s.data.drop n⟩

/-- `Url::to_file_path`: succeeds only for file-scheme uris (model: strip a
literal `file://`). -/
def urlToFilePath (uri : String) : Option String :=
  if strStartsWith "file://" uri then some (strDropChars uri 7) else none

/-- `Backend::get_rules` (lib.rs:182-193): convert the uri to a file path,
make it base-relative when under the workspace base, and resolve the
applicable rules — `None` when the uri is not a file path or when the rule
collection failed to load. -/
def Backend.get_rules (b : Backend) (uri : String) : Option (List Rule) := do
  let absolute_path ← urlToFilePath uri
  let path :=
    if strStartsWith b.base absolute_path then
      "./" ++ strDropChars absolute_path b.base.data.length
    else absolute_path
  let rules ← b.rules.toOption
  some (rules.forPath path)

/-- `Backend::get_diagnostics` (lib.rs:195-211): resolve rules for the uri
then run the combined scan over the stored tree, converting matches to
diagnostics; `None` exactly when `get_rules` yields `None`. -/
def Backend.get_diagnostics (b : Backend) (uri : String) (versioned : VersionedAst) :
    Option (List Diagnostic) :=
  (b.get_rules uri).map (fun rules => b.scan rules versioned.root)

/-- `Backend::publish_diagnostics` (lib.rs:213-220): publish
`get_diagnostics` (defaulting to the empty list on `None`) tagged with the
stored version. -/
def Backend.publish_diagnostics (b : Backend) (uri : String) (versioned : VersionedAst) :
    List Effect :=
  [Effect.publishDiagnostics uri ((b.get_diagnostics uri versioned).getD []) (some versioned.version)]

/-- The `text_document` of `DidOpenTextDocumentParams` (uri, version, full
text; the unused `language_id` is omitted). -/
structure OpenParams where
  uri : String
  version : Int
  text : String
deriving DecidableEq, Repr

/-- One element of `content_changes` under full-document sync: the full new
text. -/
structure ContentChange where
  text : String
deriving DecidableEq, Repr

/-- `DidChangeTextDocumentParams`: versioned identifier plus the content
changes. -/
structure ChangeParams where
  uri : String
  version : Int
  content_changes : List ContentChange
deriving DecidableEq, Repr

/-- `Backend::on_open` (lib.rs:222-243): log, infer the language (early
`None` return when impossible), parse, publish initial diagnostics, then
insert the versioned entry. -/
def Backend.on_open (b : Backend) (st : Store) (p : OpenParams) :
    Store × List Effect × Option Unit :=
  let parseLog := Effect.logMessage .log "Parsing doc."
  match b.inferLang p.uri with
  | none => (st, [parseLog], none)
  | some lang =>
    let root : Ast := ⟨p.text, lang⟩
    let versioned : VersionedAst := ⟨p.version, root⟩
    let effects := [parseLog, Effect.logMessage .log "Publishing init diagnostics."]
      ++ b.publish_diagnostics p.uri versioned
    (storeInsert st p.uri versioned, effects, some ())

/-- The outcome of the `didChange` handler: either a Rust panic (from the
unchecked `content_changes[0]` index) or a normal return with the updated
store, the emitted client calls, and the handler's `Option<()>` value. -/
inductive ChangeResult where
  | panic
  | result (st : Store) (effects : List Effect) (ret : Option Unit)
deriving DecidableEq, Repr

/-- `Backend::on_change` (lib.rs:244-269): read `content_changes[0]`
(panicking when the list is empty), log, infer the language (early `None`),
parse the new full text, look up the stored entry (early `None` when the id
is unknown), skip the update when the stored version is greater than the
incoming one, and otherwise replace the entry and publish diagnostics. -/
def Backend.on_change (b : Backend) (st : Store) (p : ChangeParams) : ChangeResult :=
  match p.content_changes with
  | [] => .panic
  | change :: _ =>
    let text := change.text
    let parseLog := Effect.logMessage .log "Parsing changed doc."
    match b.inferLang p.uri with
    | none => .result st [parseLog] none
    | some lang =>
      let root : Ast := ⟨text, lang⟩
      match storeGet st p.uri with
      | none => .result st [parseLog] none
      | some versioned =>
        if versioned.version > p.version then .result st [parseLog] none
        else
          let v' : VersionedAst := ⟨p.version, root⟩
          let effects := [parseLog, Effect.logMessage .log "Publishing diagnostics."]
            ++ b.publish_diagnostics p.uri v'
          .result (storeInsert st p.uri v') effects (some ())

/-- `Backend::on_close` (lib.rs:270-272): remove the entry, no error if
absent. -/
def Backend.on_close (st : Store) (uri : String) : Store :=
  storeRemove st uri

/-- The error taxonomy of the apply-all-fixes command (`enum LspError`,
lib.rs:424-428); the decode error carries its detail message. -/
inductive LspError where
  | jsonDecodeError (e : String)
  | unsupportedFileType
  | noActionableFix
deriving DecidableEq, Repr

/-- `Backend::report_error` (lib.rs:397-421): decode failures and
unsupported file types are logged at ERROR level; a missing actionable fix
is logged at LOG level only. -/
def Backend.report_error : LspError → List Effect
  | .jsonDecodeError e =>
    [Effect.logMessage .error ("JSON deserialization error: " ++ e)]
  | .unsupportedFileType =>
    [Effect.logMessage .error "Unsupported file type"]
  | .noActionableFix =>
    [Effect.logMessage .log "No actionable fix"]

/-- The JSON argument of the apply-all-fixes command: either a value that
deserializes into a `TextDocumentItem` document snapshot, or one that fails
to (carrying serde's error message). -/
inductive Arg where
  | snapshot (uri : String) (version : Int) (text : String)
  | malformed (err : String)
deriving DecidableEq, Repr

/-- `serde_json::from_value::<TextDocumentItem>` on the command argument. -/
def decodeSnapshot : Arg → Except String (String × Int × String)
  | .snapshot uri version text => .ok (uri, version, text)
  | .malformed e => .error e

/-- `Backend::on_apply_all_fix_impl` (lib.rs:350-375): decode the document
snapshot, infer the language, parse the snapshot text, compute diagnostics
(`NoActionableFix` when that yields `None`), and wrap whatever
`compute_all_fixes` returns — possibly `None` — as the `changes` of an
(unconditionally `Ok`) `WorkspaceEdit`. -/
def Backend.on_apply_all_fix_impl (b : Backend) (first : Arg) :
    Except LspError WorkspaceEdit :=
  match decodeSnapshot first with
  | .error e => .error (.jsonDecodeError e)
  | .ok (uri, version, text) =>
    match b.inferLang uri with
    | none => .error .unsupportedFileType
    | some lang =>
      let versioned : VersionedAst := ⟨version, ⟨text, lang⟩⟩
      match b.get_diagnostics uri versioned with
      | none => .error .noActionableFix
      | some diagnostics =>
        let changes := compute_all_fixes uri diagnostics
        .ok ⟨changes⟩

/-- `Backend::on_apply_all_fix` (lib.rs:377-395): log the command, take the
first argument (early return when absent), run the implementation; on error
report it and stop, otherwise send the workspace edit to the client via
`apply_edit`. -/
def Backend.on_apply_all_fix (b : Backend) (command : String) (arguments : List Arg) :
    List Effect × Option Unit :=
  let runLog := Effect.logMessage .info ("Running ExecuteCommand " ++ command)
  match arguments with
  | [] => ([runLog], none)
  | first :: _ =>
    match b.on_apply_all_fix_impl first with
    | .error e => ([runLog] ++ Backend.report_error e, none)
    | .ok workspace_edit => ([runLog] ++ [Effect.applyEdit workspace_edit], none)

/-! ## Text buffer adapter (`crates/napi/src/doc.rs`)

The buffer stores UTF-16 code units (`Vec<u16>`, modelled as `List Nat`
with values below `2^16`).  Node ranges arrive in a doubled "byte"
addressing (two bytes per unit), so unit indices are byte offsets divided
by two.  Text (`&str` / `String`) is modelled as its list of Unicode
scalar values (`List Nat` of codepoints).  -/

/-- One item of Rust's `char::decode_utf16` iterator: a decoded scalar
value, or an unpaired surrogate reported as an error. -/
inductive U16Item where
  | ok (cp : Nat)
  | err (unit : Nat)
deriving DecidableEq, Repr

/-- A UTF-16 lead (high) surrogate. -/
def isHighSurrogate (u : Nat) : Bool :=
  decide (0xD800 ≤ u) && decide (u < 0xDC00)

/-- A UTF-16 trail (low) surrogate. -/
def isLowSurrogate (u : Nat) : Bool :=
  decide (0xDC00 ≤ u) && decide (u < 0xE000)

/-- `char::decode_utf16`: pair a lead surrogate with a following trail
surrogate into one scalar value; report unpaired surrogates as errors and
pass all other units through as scalar values. -/
def decodeUtf16 : List Nat → List U16Item
  | [] => []
  | u :: us =>
    if isHighSurrogate u then
      match us with
      | [] => [.err u]
      | v :: vs =>
        if isLowSurrogate v then
          .ok (0x10000 + (u - 0xD800) * 0x400 + (v - 0xDC00)) :: decodeUtf16 vs
        else
          .err u :: decodeUtf16 (v :: vs)
    else if isLowSurrogate u then .err u :: decodeUtf16 us
    else .ok u :: decodeUtf16 us

/-- `Wrapper::encode_bytes` = `String::from_utf16_lossy`: decode the units,
replacing each unpaired surrogate with U+FFFD; the result is the text as a
list of scalar values. -/
def Wrapper.encode_bytes (bytes : List Nat) : List Nat :=
  (decodeUtf16 bytes).map fun
    | .ok c => c
    | .err _ => 0xFFFD

/-- UTF-16 encoding of one Unicode scalar value (`char::encode_utf16`):
basic-plane scalars map to themselves, supplementary ones to a surrogate
pair. -/
def encodeUtf16Char (c : Nat) : List Nat :=
  if c < 0x10000 then [c]
  else [0xD800 + (c - 0x10000) / 0x400, 0xDC00 + (c - 0x10000) % 0x400]

/-- `Wrapper::decode_str` = `str::encode_utf16().collect()`: text (a list
of scalar values) to UTF-16 storage units. -/
def Wrapper.decode_str (src : List Nat) : List Nat :=
  src.flatMap encodeUtf16Char

/-- A Unicode scalar value: any codepoint below 0x110000 that is not a
surrogate (the invariant of Rust's `char`). -/
def ValidCp (c : Nat) : Prop :=
  c < 0xD800 ∨ (0xE000 ≤ c ∧ c < 0x110000)

instance (c : Nat) : Decidable (ValidCp c) := by
  unfold ValidCp; infer_instance

/-- Well-formed UTF-16: every unit fits in 16 bits, every lead surrogate is
immediately followed by a trail surrogate, and no trail surrogate appears
unpaired. -/
def wellFormedUtf16 : List Nat → Bool
  | [] => true
  | u :: us =>
    if isHighSurrogate u then
      match us with
      | [] => false
      | v :: vs => isLowSurrogate v && wellFormedUtf16 vs
    else if isLowSurrogate u then false
    else decide (u < 0x10000) && wellFormedUtf16 us

/-- The scalar values of a Lean string literal (used to state concrete
buffer contents). -/
def strCps (s : String) : List Nat :=
  s.data.map Char.toNat

/-- `tree_sitter::Point`: zero-based row and column. -/
structure Point where
  row : Nat
  col : Nat
deriving DecidableEq, Repr

/-- The `for` loop of `pos_for_byte_offset` with its two mutable counters:
an `Ok('\n')` item increments the row and resets the column, every other
item (including unpaired-surrogate errors) increments the column. -/
def posLoop : List U16Item → Nat → Nat → Point
  | [], row, col => ⟨row, col⟩
  | it :: rest, row, col =>
    if it = .ok 10 then posLoop rest (row + 1) 0
    else posLoop rest row (col + 1)

/-- `pos_for_byte_offset` (doc.rs:114-127): halve the byte offset into a
unit offset, then walk the first `offset` decoded characters of the buffer
counting rows and columns. -/
def pos_for_byte_offset (input : List Nat) (byte_offset : Nat) : Point :=
  let offset := byte_offset / 2
  posLoop ((decodeUtf16 input).take offset) 0 0

/-- `ast_grep_core::source::Edit` for the UTF-16 wrapper: a byte position,
a deleted byte length, and the inserted storage units. -/
structure Edit where
  position : Nat
  deleted_length : Nat
  inserted_text : List Nat
deriving DecidableEq, Repr

/-- `tree_sitter::InputEdit`: the three byte offsets and three points the
incremental parser needs. -/
structure InputEdit where
  start_byte : Nat
  old_end_byte : Nat
  new_end_byte : Nat
  start_position : Point
  old_end_position : Point
  new_end_position : Point
deriving DecidableEq, Repr

/-- The UTF-16 buffer (`struct Wrapper { inner: Vec<u16> }`). -/
structure Wrapper where
  inner : List Nat
deriving DecidableEq, Repr

/-- `Wrapper::get_range` (doc.rs:66-71): a byte range is halved into unit
indices and sliced (`&inner[start/2 .. end/2]`). -/
def Wrapper.get_range (w : Wrapper) (start stop : Nat) : List Nat :=
  (w.inner.take (stop / 2)).drop (start / 2)

/-- `Wrapper::accept_edit` (doc.rs:72-89): compute the start and old-end
byte offsets and their positions on the pre-edit buffer, splice the storage
units (`splice(start_byte/2 .. old_end_byte/2, inserted_text)`), then
compute the new-end byte offset's position on the post-edit buffer, and
return the full `InputEdit` descriptor together with the mutated buffer. -/
def Wrapper.accept_edit (w : Wrapper) (edit : Edit) : Wrapper × InputEdit :=
  let start_byte := edit.position
  let old_end_byte := edit.position + edit.deleted_length
  let new_end_byte := edit.position + edit.inserted_text.length * 2
  let start_position := pos_for_byte_offset w.inner start_byte
  let old_end_position := pos_for_byte_offset w.inner old_end_byte
  let input :=
    w.inner.take (start_byte / 2) ++ edit.inserted_text ++ w.inner.drop (old_end_byte / 2)
  let new_end_position := pos_for_byte_offset input new_end_byte
  (⟨input⟩,
   ⟨start_byte, old_end_byte, new_end_byte,
    start_position, old_end_position, new_end_position⟩)

/-- `Wrapper::get_text` (doc.rs:90-95): decode the unit slice spanned by a
node's byte range back to text (`String::from_utf16_lossy`). -/
def Wrapper.get_text (w : Wrapper) (start_byte end_byte : Nat) : List Nat :=
  Wrapper.encode_bytes ((w.inner.take (end_byte / 2)).drop (start_byte / 2))

/-- One step of the row/column walk over decoded characters, as the spec
words it: a line terminator increments the row and resets the column to 0,
any other decoded character increments the column. -/
def rcStep (rc : Nat × Nat) (it : U16Item) : Nat × Nat :=
  if it = .ok 10 then (rc.1 + 1, 0) else (rc.1, rc.2 + 1)

/-- The spec-side row/column walk: fold `rcStep` over a prefix of the
decoded characters starting from the origin. -/
def rowColSpec (items : List U16Item) : Point :=
  ⟨(items.foldl rcStep (0, 0)).1, (items.foldl rcStep (0, 0)).2⟩

/-- The fixed executable command name (`pub const APPLY_ALL_FIXES`). -/
def APPLY_ALL_FIXES : String := "ast-grep.applyAllFixes"

/-- A sample backend whose rule collection failed to load. -/
def errBackend : Backend :=
  { base := "", rules := .error "bad rules",
    inferLang := fun _ => some "js", scan := fun _ _ => [] }

/-- A sample backend that cannot infer a language for any uri. -/
def noLangBackend : Backend :=
  { base := "", rules := .error "bad rules",
    inferLang := fun _ => none, scan := fun _ _ => [] }

/-- A sample store holding one document at version 3. -/
def sampleStore : Store := [("file:///a.js", ⟨3, ⟨"old", "js"⟩⟩)]

/-- A diagnostic carrying no fix payload. -/
def noFixDiag : Diagnostic := ⟨⟨⟨0, 0⟩, ⟨0, 1⟩⟩, "m", 1, "r", none⟩

/-- A sample backend whose rules load fine but whose only match yields a
payload-less diagnostic. -/
def okBackendNoFix : Backend :=
  { base := "", rules := .ok ⟨fun _ => [⟨"r"⟩]⟩,
    inferLang := fun _ => some "js", scan := fun _ _ => [noFixDiag] }

/-! ## Helper lemmas -/

theorem posLe_refl (a : Position) : posLe a a := Or.inr rfl

theorem not_posLt {a b : Position} : ¬ posLt a b ↔ posLe b a := by
  cases a; cases b
  simp [posLe, posLt, Position.mk.injEq]
  omega

theorem posLe_trans {a b c : Position} (h₁ : posLe a b) (h₂ : posLe b c) : posLe a c := by
  cases a; cases b; cases c
  simp only [posLe, posLt, Position.mk.injEq] at *
  omega

theorem posLe_not_lt {a b : Position} (h : posLe a b) : ¬ posLt b a := by
  cases a; cases b
  simp only [posLe, posLt, Position.mk.injEq] at *
  omega

theorem rangeKeyLe_start_le {a b : Range} (h : rangeKeyLe a b) : posLe a.start b.start := by
  rcases h with h | ⟨h, _⟩
  · exact Or.inl h
  · exact Or.inr h

theorem diagKeyLeB_trans (a b c : Diagnostic)
    (hab : diagKeyLeB a b = true) (hbc : diagKeyLeB b c = true) :
    diagKeyLeB a c = true := by
  obtain ⟨⟨⟨asl, asc⟩, ⟨ael, aec⟩⟩, _, _, _, _⟩ := a
  obtain ⟨⟨⟨bsl, bsc⟩, ⟨bel, bec⟩⟩, _, _, _, _⟩ := b
  obtain ⟨⟨⟨csl, csc⟩, ⟨cel, cec⟩⟩, _, _, _, _⟩ := c
  simp only [diagKeyLeB, rangeKeyLe, posLt, posLe, Position.mk.injEq,
    decide_eq_true_iff] at *
  omega

theorem diagKeyLeB_total (a b : Diagnostic) :
    (diagKeyLeB a b || diagKeyLeB b a) = true := by
  obtain ⟨⟨⟨asl, asc⟩, ⟨ael, aec⟩⟩, _, _, _, _⟩ := a
  obtain ⟨⟨⟨bsl, bsc⟩, ⟨bel, bec⟩⟩, _, _, _, _⟩ := b
  simp only [diagKeyLeB, rangeKeyLe, posLt, posLe, Position.mk.injEq,
    Bool.or_eq_true, decide_eq_true_iff]
  omega

theorem storeGet_storeInsert (st : Store) (k u : String) (v : VersionedAst) :
    storeGet (storeInsert st k v) u = if u = k then some v else storeGet st u := by
  induction st with
  | nil => simp [storeInsert, storeGet]
  | cons hd tl ih =>
    obtain ⟨hk, hv⟩ := hd
    by_cases hkk : k = hk
    · subst hkk
      rw [show storeInsert ((k, hv) :: tl) k v = (k, v) :: tl from by simp [storeInsert]]
      by_cases huk : u = k <;> simp [storeGet, huk]
    · rw [show storeInsert ((hk, hv) :: tl) k v = (hk, hv) :: storeInsert tl k v from by
        simp [storeInsert, hkk]]
      by_cases huk : u = hk
      · subst huk
        have hneq : ¬ u = k := fun h => hkk h.symm
        simp [storeGet, hneq]
      · simp [storeGet, huk, ih]

theorem resolveGo_cons_conflict {d : Diagnostic} {ds : List Diagnostic} {last : Position}
    (h : posLt d.range.start last) :
    resolveGo last (d :: ds) = resolveGo last ds := by
  simp [resolveGo, h]

theorem resolveGo_cons_nodata {d : Diagnostic} {ds : List Diagnostic} {last : Position}
    (h : ¬ posLt d.range.start last) (hd : d.data = none) :
    resolveGo last (d :: ds) = resolveGo last ds := by
  simp [resolveGo, h, hd]

theorem resolveGo_cons_nodecode {d : Diagnostic} {ds : List Diagnostic} {last : Position}
    {v : Value} (h : ¬ posLt d.range.start last) (hd : d.data = some v)
    (hrv : RewriteData.from_value v = none) :
    resolveGo last (d :: ds) = resolveGo last ds := by
  simp [resolveGo, h, hd, hrv]

theorem resolveGo_cons_accept {d : Diagnostic} {ds : List Diagnostic} {last : Position}
    {v : Value} {rd : RewriteData} (h : ¬ posLt d.range.start last)
    (hd : d.data = some v) (hrv : RewriteData.from_value v = some rd) :
    resolveGo last (d :: ds)
      = TextEdit.mk d.range rd.fixed :: resolveGo d.range.«end» ds := by
  simp [resolveGo, h, hd, hrv]

theorem on_change_cons_nolang {b : Backend} {st : Store} {uri : String} {v : Int}
    {c : ContentChange} {cs : List ContentChange} (hl : b.inferLang uri = none) :
    Backend.on_change b st ⟨uri, v, c :: cs⟩
      = .result st [Effect.logMessage .log "Parsing changed doc."] none := by
  simp [Backend.on_change, hl]

theorem on_change_cons_unknown {b : Backend} {st : Store} {uri : String} {v : Int}
    {c : ContentChange} {cs : List ContentChange} {lang : Lang}
    (hl : b.inferLang uri = some lang) (hg : storeGet st uri = none) :
    Backend.on_change b st ⟨uri, v, c :: cs⟩
      = .result st [Effect.logMessage .log "Parsing changed doc."] none := by
  simp [Backend.on_change, hl, hg]

theorem on_change_cons_stale {b : Backend} {st : Store} {uri : String} {v : Int}
    {c : ContentChange} {cs : List ContentChange} {lang : Lang}
    {versioned : VersionedAst} (hl : b.inferLang uri = some lang)
    (hg : storeGet st uri = some versioned) (hv : versioned.version > v) :
    Backend.on_change b st ⟨uri, v, c :: cs⟩
      = .result st [Effect.logMessage .log "Parsing changed doc."] none := by
  simp [Backend.on_change, hl, hg, hv]

theorem on_change_cons_apply {b : Backend} {st : Store} {uri : String} {v : Int}
    {c : ContentChange} {cs : List ContentChange} {lang : Lang}
    {versioned : VersionedAst} (hl : b.inferLang uri = some lang)
    (hg : storeGet st uri = some versioned) (hv : ¬ versioned.version > v) :
    Backend.on_change b st ⟨uri, v, c :: cs⟩
      = .result (storeInsert st uri ⟨v, ⟨c.text, lang⟩⟩)
          ([Effect.logMessage .log "Parsing changed doc.",
            Effect.logMessage .log "Publishing diagnostics."]
            ++ b.publish_diagnostics uri ⟨v, ⟨c.text, lang⟩⟩) (some ()) := by
  simp [Backend.on_change, hl, hg, hv]

theorem on_apply_all_fix_impl_snapshot (b : Backend) (uri : String) (version : Int)
    (text : String) (lang : Lang) (hl : b.inferLang uri = some lang) :
    Backend.on_apply_all_fix_impl b (.snapshot uri version text)
      = match b.get_diagnostics uri ⟨version, ⟨text, lang⟩⟩ with
        | none => .error .noActionableFix
        | some diagnostics => .ok ⟨compute_all_fixes uri diagnostics⟩ := by
  simp [Backend.on_apply_all_fix_impl, decodeSnapshot, hl]

theorem on_apply_all_fix_cons_ok {b : Backend} {cmd : String} {first : Arg}
    {rest : List Arg} {we : WorkspaceEdit}
    (h : Backend.on_apply_all_fix_impl b first = .ok we) :
    Backend.on_apply_all_fix b cmd (first :: rest)
      = ([Effect.logMessage .info ("Running ExecuteCommand " ++ cmd),
          Effect.applyEdit we], none) := by
  simp [Backend.on_apply_all_fix, h]

theorem on_apply_all_fix_cons_err {b : Backend} {cmd : String} {first : Arg}
    {rest : List Arg} {e : LspError}
    (h : Backend.on_apply_all_fix_impl b first = .error e) :
    Backend.on_apply_all_fix b cmd (first :: rest)
      = (Effect.logMessage .info ("Running ExecuteCommand " ++ cmd)
          :: Backend.report_error e, none) := by
  simp [Backend.on_apply_all_fix, h]

theorem foldl_fixStep_fst (l : List Diagnostic) :
    ∀ (es : List TextEdit) (last : Position),
      (List.foldl fixStep (es, last) l).1 = es ++ resolveGo last l := by
  induction l with
  | nil => intro es last; simp [resolveGo]
  | cons d ds ih =>
    intro es last
    simp only [List.foldl_cons, resolveGo]
    by_cases h : posLt d.range.start last
    · simp [fixStep, h, ih]
    · cases hd : d.data with
      | none => simp [fixStep, h, hd, ih]
      | some v =>
        cases hrv : RewriteData.from_value v with
        | none => simp [fixStep, h, hd, hrv, ih]
        | some rd => simp [fixStep, h, hd, hrv, ih]

theorem resolveGo_mem (l : List Diagnostic) :
    ∀ (last : Position) (e : TextEdit), e ∈ resolveGo last l →
      ∃ d ∈ l, e.range = d.range ∧
        ∃ v rd, d.data = some v ∧ RewriteData.from_value v = some rd ∧
          e.newText = rd.fixed := by
  induction l with
  | nil => intro last e he; simp [resolveGo] at he
  | cons d ds ih =>
    intro last e he
    by_cases h : posLt d.range.start last
    · rw [resolveGo_cons_conflict h] at he
      obtain ⟨dd, hdd, rest⟩ := ih last e he
      exact ⟨dd, List.mem_cons_of_mem _ hdd, rest⟩
    · cases hd : d.data with
      | none =>
        rw [resolveGo_cons_nodata h hd] at he
        obtain ⟨dd, hdd, rest⟩ := ih last e he
        exact ⟨dd, List.mem_cons_of_mem _ hdd, rest⟩
      | some v =>
        cases hrv : RewriteData.from_value v with
        | none =>
          rw [resolveGo_cons_nodecode h hd hrv] at he
          obtain ⟨dd, hdd, rest⟩ := ih last e he
          exact ⟨dd, List.mem_cons_of_mem _ hdd, rest⟩
        | some rd =>
          rw [resolveGo_cons_accept h hd hrv] at he
          rcases List.mem_cons.mp he with rfl | he'
          · exact ⟨d, List.mem_cons_self _ _, rfl, v, rd, hd, hrv, rfl⟩
          · obtain ⟨dd, hdd, rest⟩ := ih _ e he'
            exact ⟨dd, List.mem_cons_of_mem _ hdd, rest⟩

theorem resolveGo_start_ge (l : List Diagnostic) :
    l.Pairwise (fun a b => posLe a.range.start b.range.start) →
    ∀ last, ∀ e ∈ resolveGo last l, posLe last e.range.start := by
  induction l with
  | nil => intro _ last e he; simp [resolveGo] at he
  | cons d ds ih =>
    intro hs last e he
    have hhead := (List.pairwise_cons.mp hs).1
    have htail := (List.pairwise_cons.mp hs).2
    by_cases h : posLt d.range.start last
    · rw [resolveGo_cons_conflict h] at he
      exact ih htail last e he
    · have hld : posLe last d.range.start := not_posLt.mp h
      cases hd : d.data with
      | none =>
        rw [resolveGo_cons_nodata h hd] at he
        exact ih htail last e he
      | some v =>
        cases hrv : RewriteData.from_value v with
        | none =>
          rw [resolveGo_cons_nodecode h hd hrv] at he
          exact ih htail last e he
        | some rd =>
          rw [resolveGo_cons_accept h hd hrv] at he
          rcases List.mem_cons.mp he with rfl | he'
          · exact hld
          · obtain ⟨dd, hdd, hrange, _⟩ := resolveGo_mem ds _ e he'
            have h1 : posLe d.range.start dd.range.start := hhead dd hdd
            have h2 : posLe last dd.range.start := posLe_trans hld h1
            rw [hrange]
            exact h2

theorem resolveGo_chain (l : List Diagnostic) :
    l.Pairwise (fun a b => posLe a.range.start b.range.start) →
    ∀ last, (resolveGo last l).Pairwise
      (fun a b => posLe a.range.«end» b.range.start) := by
  induction l with
  | nil => intro _ last; simp [resolveGo]
  | cons d ds ih =>
    intro hs last
    have htail := (List.pairwise_cons.mp hs).2
    by_cases h : posLt d.range.start last
    · rw [resolveGo_cons_conflict h]; exact ih htail last
    · cases hd : d.data with
      | none => rw [resolveGo_cons_nodata h hd]; exact ih htail last
      | some v =>
        cases hrv : RewriteData.from_value v with
        | none => rw [resolveGo_cons_nodecode h hd hrv]; exact ih htail last
        | some rd =>
          rw [resolveGo_cons_accept h hd hrv]
          refine List.pairwise_cons.mpr ⟨?_, ih htail _⟩
          intro f hf
          exact resolveGo_start_ge ds htail _ f hf

theorem resolveGo_ranges_sublist (l : List Diagnostic) :
    ∀ last, ((resolveGo last l).map (fun e => e.range)).Sublist
      (l.map (fun d => d.range)) := by
  induction l with
  | nil => intro last; simp [resolveGo]
  | cons d ds ih =>
    intro last
    by_cases h : posLt d.range.start last
    · rw [resolveGo_cons_conflict h]; exact (ih last).cons _
    · cases hd : d.data with
      | none => rw [resolveGo_cons_nodata h hd]; exact (ih last).cons _
      | some v =>
        cases hrv : RewriteData.from_value v with
        | none => rw [resolveGo_cons_nodecode h hd hrv]; exact (ih last).cons _
        | some rd =>
          rw [resolveGo_cons_accept h hd hrv]
          exact (ih _).cons₂ _

theorem posLoop_eq_foldl (items : List U16Item) :
    ∀ row col, posLoop items row col
      = ⟨(items.foldl rcStep (row, col)).1, (items.foldl rcStep (row, col)).2⟩ := by
  induction items with
  | nil => intro row col; rfl
  | cons it rest ih =>
    intro row col
    by_cases h : it = .ok 10 <;> simp [posLoop, rcStep, h, ih]

theorem isHighSurrogate_true_of {u : Nat} (h : 0xD800 ≤ u ∧ u < 0xDC00) :
    isHighSurrogate u = true := by
  unfold isHighSurrogate
  simp only [Bool.and_eq_true, decide_eq_true_iff]
  omega

theorem isLowSurrogate_true_of {u : Nat} (h : 0xDC00 ≤ u ∧ u < 0xE000) :
    isLowSurrogate u = true := by
  unfold isLowSurrogate
  simp only [Bool.and_eq_true, decide_eq_true_iff]
  omega

theorem isHighSurrogate_false_of {u : Nat} (h : u < 0xD800 ∨ 0xDC00 ≤ u) :
    isHighSurrogate u = false := by
  unfold isHighSurrogate
  rcases h with h | h <;> simp <;> omega

theorem isLowSurrogate_false_of {u : Nat} (h : u < 0xDC00 ∨ 0xE000 ≤ u) :
    isLowSurrogate u = false := by
  unfold isLowSurrogate
  rcases h with h | h <;> simp <;> omega

theorem bounds_of_isHighSurrogate {u : Nat} (h : isHighSurrogate u = true) :
    0xD800 ≤ u ∧ u < 0xDC00 := by
  unfold isHighSurrogate at h
  simpa using h

theorem bounds_of_isLowSurrogate {u : Nat} (h : isLowSurrogate u = true) :
    0xDC00 ≤ u ∧ u < 0xE000 := by
  unfold isLowSurrogate at h
  simpa using h

theorem decodeUtf16_cons_basic {u : Nat} (rest : List Nat)
    (h1 : isHighSurrogate u = false) (h2 : isLowSurrogate u = false) :
    decodeUtf16 (u :: rest) = .ok u :: decodeUtf16 rest := by
  cases rest <;> simp [decodeUtf16, h1, h2]

theorem decodeUtf16_cons_pair {u v : Nat} (rest : List Nat)
    (hu : isHighSurrogate u = true) (hv : isLowSurrogate v = true) :
    decodeUtf16 (u :: v :: rest)
      = .ok (0x10000 + (u - 0xD800) * 0x400 + (v - 0xDC00)) :: decodeUtf16 rest := by
  simp [decodeUtf16, hu, hv]

theorem encode_bytes_cons_basic {u : Nat} (rest : List Nat)
    (h1 : isHighSurrogate u = false) (h2 : isLowSurrogate u = false) :
    Wrapper.encode_bytes (u :: rest) = u :: Wrapper.encode_bytes rest := by
  simp [Wrapper.encode_bytes, decodeUtf16_cons_basic rest h1 h2]

theorem encode_bytes_cons_pair {u v : Nat} (rest : List Nat)
    (hu : isHighSurrogate u = true) (hv : isLowSurrogate v = true) :
    Wrapper.encode_bytes (u :: v :: rest)
      = (0x10000 + (u - 0xD800) * 0x400 + (v - 0xDC00))
          :: Wrapper.encode_bytes rest := by
  simp [Wrapper.encode_bytes, decodeUtf16_cons_pair rest hu hv]

theorem decode_str_cons (c : Nat) (cs : List Nat) :
    Wrapper.decode_str (c :: cs) = encodeUtf16Char c ++ Wrapper.decode_str cs := by
  simp [Wrapper.decode_str]

theorem utf16_text_roundtrip (text : List Nat) (hvalid : ∀ c ∈ text, ValidCp c) :
    Wrapper.encode_bytes (Wrapper.decode_str text) = text := by
  induction text with
  | nil => rfl
  | cons c cs ih =>
    have hc : ValidCp c := hvalid c (List.mem_cons_self c cs)
    have ih' := ih (fun x hx => hvalid x (List.mem_cons_of_mem _ hx))
    rw [decode_str_cons]
    by_cases hbmp : c < 0x10000
    · rw [show encodeUtf16Char c = [c] from by simp [encodeUtf16Char, hbmp]]
      have h1 : isHighSurrogate c = false := by
        apply isHighSurrogate_false_of
        unfold ValidCp at hc
        omega
      have h2 : isLowSurrogate c = false := by
        apply isLowSurrogate_false_of
        unfold ValidCp at hc
        omega
      rw [List.singleton_append, encode_bytes_cons_basic _ h1 h2, ih']
    · have hc' : c < 0x110000 := by
        unfold ValidCp at hc
        omega
      rw [show encodeUtf16Char c
          = [0xD800 + (c - 0x10000) / 0x400, 0xDC00 + (c - 0x10000) % 0x400] from by
        simp [encodeUtf16Char, hbmp]]
      have hu : isHighSurrogate (0xD800 + (c - 0x10000) / 0x400) = true := by
        apply isHighSurrogate_true_of
        omega
      have hv : isLowSurrogate (0xDC00 + (c - 0x10000) % 0x400) = true := by
        apply isLowSurrogate_true_of
        omega
      simp only [List.cons_append, List.nil_append]
      rw [encode_bytes_cons_pair _ hu hv, ih',
        show 0x10000 + (0xD800 + (c - 0x10000) / 0x400 - 0xD800) * 0x400
            + (0xDC00 + (c - 0x10000) % 0x400 - 0xDC00) = c from by omega]

theorem wellFormedUtf16_cons_basic {u : Nat} (us : List Nat)
    (h1 : isHighSurrogate u = false) (h2 : isLowSurrogate u = false) :
    wellFormedUtf16 (u :: us) = (decide (u < 0x10000) && wellFormedUtf16 us) := by
  cases us <;> simp [wellFormedUtf16, h1, h2]

theorem wellFormedUtf16_cons_low {u : Nat} (us : List Nat)
    (h1 : isHighSurrogate u = false) (h2 : isLowSurrogate u = true) :
    wellFormedUtf16 (u :: us) = false := by
  cases us <;> simp [wellFormedUtf16, h1, h2]

theorem utf16_units_roundtrip_aux (n : Nat) :
    ∀ (units : List Nat), units.length ≤ n → wellFormedUtf16 units = true →
      Wrapper.decode_str (Wrapper.encode_bytes units) = units := by
  induction n with
  | zero =>
    intro units hlen h
    cases units with
    | nil => rfl
    | cons u us => simp at hlen
  | succ n ih =>
    intro units hlen h
    cases units with
    | nil => rfl
    | cons u us =>
      by_cases hhi : isHighSurrogate u = true
      · cases us with
        | nil => simp [wellFormedUtf16, hhi] at h
        | cons v vs =>
          have h' : isLowSurrogate v = true ∧ wellFormedUtf16 vs = true := by
            simpa [wellFormedUtf16, hhi] using h
          obtain ⟨hlo, hwf⟩ := h'
          rw [encode_bytes_cons_pair vs hhi hlo, decode_str_cons,
            ih vs (by simp at hlen; omega) hwf]
          have hb1 := bounds_of_isHighSurrogate hhi
          have hb2 := bounds_of_isLowSurrogate hlo
          have hge : ¬ (0x10000 + (u - 0xD800) * 0x400 + (v - 0xDC00)) < 0x10000 := by
            omega
          rw [show encodeUtf16Char (0x10000 + (u - 0xD800) * 0x400 + (v - 0xDC00))
              = [0xD800 + ((0x10000 + (u - 0xD800) * 0x400 + (v - 0xDC00)) - 0x10000) / 0x400,
                 0xDC00 + ((0x10000 + (u - 0xD800) * 0x400 + (v - 0xDC00)) - 0x10000) % 0x400]
            from by simp [encodeUtf16Char, hge]]
          have e1 : 0xD800
              + ((0x10000 + (u - 0xD800) * 0x400 + (v - 0xDC00)) - 0x10000) / 0x400 = u := by
            omega
          have e2 : 0xDC00
              + ((0x10000 + (u - 0xD800) * 0x400 + (v - 0xDC00)) - 0x10000) % 0x400 = v := by
            omega
          rw [e1, e2]
          rfl
      · have hhi' : isHighSurrogate u = false := by
          revert hhi
          cases isHighSurrogate u <;> simp
        by_cases hlo : isLowSurrogate u = true
        · rw [wellFormedUtf16_cons_low us hhi' hlo] at h
          exact absurd h (by simp)
        · have hlo' : isLowSurrogate u = false := by
            revert hlo
            cases isLowSurrogate u <;> simp
          have h' : u < 0x10000 ∧ wellFormedUtf16 us = true := by
            rw [wellFormedUtf16_cons_basic us hhi' hlo'] at h
            simpa using h
          obtain ⟨hu16, hwf⟩ := h'
          rw [encode_bytes_cons_basic _ hhi' hlo', decode_str_cons,
            ih us (by simp at hlen; omega) hwf,
            show encodeUtf16Char u = [u] from by simp [encodeUtf16Char, hu16]]
          rfl

/-! ## Claims -/

/-- C3: `compute_all_fixes` implements exactly the deterministic greedy
interval selection of the spec: sort by `(range start, range end)`
ascending, track `last_accepted_end` from the document origin `(0, 0)`,
drop a diagnostic whose range start is before `last_accepted_end`,
otherwise drop it when it carries no decodable fix payload, otherwise
accept the edit and advance `last_accepted_end` to its range end; and when
zero edits are accepted it returns `none` rather than an empty edit set. -/
theorem compute_all_fixes_eq_greedy_spec (uri : String)
    (diagnostics : List Diagnostic) :
    compute_all_fixes uri diagnostics = resolveSpec uri diagnostics := by
  have h := foldl_fixStep_fst (diagnostics.mergeSort diagKeyLeB) [] ⟨0, 0⟩
  simp only [List.nil_append] at h
  simp only [compute_all_fixes, resolveSpec, h]
  by_cases he : resolveGo ⟨0, 0⟩ (diagnostics.mergeSort diagKeyLeB) = [] <;>
    simp [he, List.isEmpty_iff]

/-- C2: whenever `compute_all_fixes` returns an edit set, the set has
exactly one entry, keyed by the document's uri; its edits are pairwise
non-overlapping and in ascending `(start, end)` order; and every edit's
range and replacement text come from some diagnostic of the input (one
whose payload decodes to that replacement). -/
theorem compute_all_fixes_safe (uri : String) (diagnostics : List Diagnostic)
    (result : List (String × List TextEdit))
    (h : compute_all_fixes uri diagnostics = some result) :
    ∃ edits, result = [(uri, edits)] ∧
      edits.Pairwise (fun a b => ¬ rangesOverlap a.range b.range) ∧
      edits.Pairwise (fun a b => rangeKeyLe a.range b.range) ∧
      ∀ e ∈ edits, ∃ d ∈ diagnostics, e.range = d.range ∧
        ∃ v rd, d.data = some v ∧ RewriteData.from_value v = some rd ∧
          e.newText = rd.fixed := by
  have hfold := foldl_fixStep_fst (diagnostics.mergeSort diagKeyLeB) [] ⟨0, 0⟩
  simp only [List.nil_append] at hfold
  simp only [compute_all_fixes, hfold] at h
  by_cases he :
      resolveGo ⟨0, 0⟩ (diagnostics.mergeSort diagKeyLeB) = []
  · simp [he] at h
  · rw [if_neg (by simpa [List.isEmpty_iff] using he)] at h
    refine ⟨resolveGo ⟨0, 0⟩ (diagnostics.mergeSort diagKeyLeB),
      (Option.some_injective _ h).symm, ?_, ?_, ?_⟩
    · have hpair : (diagnostics.mergeSort diagKeyLeB).Pairwise
          (fun a b => diagKeyLeB a b = true) :=
        List.sorted_mergeSort diagKeyLeB_trans diagKeyLeB_total diagnostics
      have hstart : (diagnostics.mergeSort diagKeyLeB).Pairwise
          (fun a b => posLe a.range.start b.range.start) :=
        hpair.imp (fun hab => rangeKeyLe_start_le (of_decide_eq_true hab))
      have hchain := resolveGo_chain _ hstart ⟨0, 0⟩
      refine hchain.imp ?_
      intro a b hab hov
      simp only [rangesOverlap] at hov
      exact posLe_not_lt hab hov.2
    · have hpair : (diagnostics.mergeSort diagKeyLeB).Pairwise
          (fun a b => diagKeyLeB a b = true) :=
        List.sorted_mergeSort diagKeyLeB_trans diagKeyLeB_total diagnostics
      have hkey : (diagnostics.mergeSort diagKeyLeB).Pairwise
          (fun a b => rangeKeyLe a.range b.range) :=
        hpair.imp (fun hab => of_decide_eq_true hab)
      have hmap : ((diagnostics.mergeSort diagKeyLeB).map
          (fun d => d.range)).Pairwise rangeKeyLe :=
        List.pairwise_map.mpr hkey
      have hsub := resolveGo_ranges_sublist (diagnostics.mergeSort diagKeyLeB) ⟨0, 0⟩
      exact List.pairwise_map.mp (List.Pairwise.sublist hsub hmap)
    · intro e he'
      obtain ⟨d, hd, rest⟩ := resolveGo_mem _ _ e he'
      exact ⟨d, (List.mergeSort_perm diagnostics diagKeyLeB).subset hd, rest⟩

/-- C6: on the concrete buffer holding `"line1\nline2\nline3"`, inserting
the single unit `"X"` at byte offset 22 (immediately after `"line2"`) with
deleted length 0 yields a descriptor whose new-end position is row 1,
column 6 (0-indexed), and decoding the mutated buffer afterwards reads
`"line1\nline2X\nline3"`. -/
theorem insert_after_line2_accuracy :
    (Wrapper.accept_edit ⟨Wrapper.decode_str (strCps "line1\nline2\nline3")⟩
        ⟨22, 0, Wrapper.decode_str (strCps "X")⟩).2.new_end_position
      = ⟨1, 6⟩ ∧
    Wrapper.encode_bytes
        (Wrapper.accept_edit ⟨Wrapper.decode_str (strCps "line1\nline2\nline3")⟩
          ⟨22, 0, Wrapper.decode_str (strCps "X")⟩).1.inner
      = strCps "line1\nline2X\nline3" := by
  decide

/-- C8: when the rule collection failed to load, diagnostics computation
yields no diagnostics for any document, and the publication path still
publishes an empty diagnostics list tagged with the document's version
instead of failing. -/
theorem rules_error_publishes_empty (b : Backend) (uri : String)
    (versioned : VersionedAst) (e : String) (h : b.rules = .error e) :
    b.get_diagnostics uri versioned = none ∧
    b.publish_diagnostics uri versioned
      = [Effect.publishDiagnostics uri [] (some versioned.version)] := by
  have hrules : b.rules.toOption = none := by rw [h]; rfl
  have hgr : b.get_rules uri = none := by
    unfold Backend.get_rules
    cases hu : urlToFilePath uri with
    | none => rfl
    | some p => simp [hu, hrules]
  have hgd : b.get_diagnostics uri versioned = none := by
    simp [Backend.get_diagnostics, hgr]
  exact ⟨hgd, by simp [Backend.publish_diagnostics, hgd]⟩

/-- Witness for C8 at a concrete backend with a failed rule load. -/
theorem rules_error_publishes_empty_witness :
    Backend.get_diagnostics errBackend "file:///a.js" ⟨7, ⟨"t", "js"⟩⟩ = none ∧
    Backend.publish_diagnostics errBackend "file:///a.js" ⟨7, ⟨"t", "js"⟩⟩
      = [Effect.publishDiagnostics "file:///a.js" [] (some 7)] :=
  rules_error_publishes_empty errBackend "file:///a.js" ⟨7, ⟨"t", "js"⟩⟩ "bad rules" rfl

/-- C9: the didChange handler reads `content_changes[0]` with an unchecked
index: it panics exactly on an empty `content_changes` list, so totality
requires the list to be non-empty. -/
theorem on_change_panics_iff_empty_changes :
    (∀ (b : Backend) (st : Store) (p : ChangeParams),
      p.content_changes = [] → Backend.on_change b st p = .panic)
    ∧ (∀ (b : Backend) (st : Store) (p : ChangeParams),
      p.content_changes ≠ [] → Backend.on_change b st p ≠ .panic) := by
  constructor
  · intro b st p h
    unfold Backend.on_change
    rw [h]
  · intro b st p h
    unfold Backend.on_change
    cases hc : p.content_changes with
    | nil => exact absurd hc h
    | cons c cs =>
      cases hl : b.inferLang p.uri with
      | none => simp
      | some lang =>
        cases hg : storeGet st p.uri with
        | none => simp [hg]
        | some versioned =>
          by_cases hv : versioned.version > p.version <;> simp [hg, hv]

/-- Witness for C9: a concrete empty notification panics, a concrete
non-empty one does not. -/
theorem on_change_panics_iff_empty_changes_witness :
    Backend.on_change errBackend [] ⟨"file:///a.js", 1, []⟩ = .panic ∧
    Backend.on_change errBackend [] ⟨"file:///a.js", 1, [⟨"t"⟩]⟩ ≠ .panic :=
  ⟨on_change_panics_iff_empty_changes.1 errBackend [] ⟨"file:///a.js", 1, []⟩ rfl,
   on_change_panics_iff_empty_changes.2 errBackend [] ⟨"file:///a.js", 1, [⟨"t"⟩]⟩
     (by simp)⟩

/-- C10: a didOpen whose uri has no inferable language returns early as a
no-op — no entry is inserted and no diagnostics are published — and a
subsequent didChange for the same uri is likewise a silent no-op. -/
theorem open_unknown_language_noop (b : Backend) (st : Store) (p : OpenParams)
    (q : ChangeParams) (c : ContentChange) (cs : List ContentChange)
    (hl : b.inferLang p.uri = none) (hq : q.uri = p.uri)
    (hc : q.content_changes = c :: cs) :
    Backend.on_open b st p = (st, [Effect.logMessage .log "Parsing doc."], none) ∧
    Backend.on_change b st q
      = .result st [Effect.logMessage .log "Parsing changed doc."] none := by
  constructor
  · unfold Backend.on_open
    rw [hl]
  · unfold Backend.on_change
    rw [hc, hq, hl]

/-- Witness for C10 at a concrete language-less backend. -/
theorem open_unknown_language_noop_witness :
    Backend.on_open noLangBackend [] ⟨"file:///x.zz", 1, "t"⟩
      = ([], [Effect.logMessage .log "Parsing doc."], none) ∧
    Backend.on_change noLangBackend [] ⟨"file:///x.zz", 2, [⟨"t2"⟩]⟩
      = .result [] [Effect.logMessage .log "Parsing changed doc."] none :=
  open_unknown_language_noop noLangBackend [] ⟨"file:///x.zz", 1, "t"⟩
    ⟨"file:///x.zz", 2, [⟨"t2"⟩]⟩ ⟨"t2"⟩ [] rfl rfl rfl

/-- Witness for C2: a single fixable diagnostic yields the expected
singleton safe edit set. -/
theorem compute_all_fixes_safe_witness :
    compute_all_fixes "u"
        [Diagnostic.mk ⟨⟨0, 0⟩, ⟨0, 1⟩⟩ "m" 1 "r" (some (.rewrite "fix" "r"))]
      = some [("u", [TextEdit.mk ⟨⟨0, 0⟩, ⟨0, 1⟩⟩ "fix"])] ∧
    (∃ edits, [("u", [TextEdit.mk ⟨⟨0, 0⟩, ⟨0, 1⟩⟩ "fix"])] = [("u", edits)] ∧
      edits.Pairwise (fun a b => ¬ rangesOverlap a.range b.range) ∧
      edits.Pairwise (fun a b => rangeKeyLe a.range b.range) ∧
      ∀ e ∈ edits,
        ∃ d ∈ [Diagnostic.mk ⟨⟨0, 0⟩, ⟨0, 1⟩⟩ "m" 1 "r" (some (.rewrite "fix" "r"))],
          e.range = d.range ∧ ∃ v rd, d.data = some v ∧
            RewriteData.from_value v = some rd ∧ e.newText = rd.fixed) := by
  have h : compute_all_fixes "u"
      [Diagnostic.mk ⟨⟨0, 0⟩, ⟨0, 1⟩⟩ "m" 1 "r" (some (.rewrite "fix" "r"))]
      = some [("u", [TextEdit.mk ⟨⟨0, 0⟩, ⟨0, 1⟩⟩ "fix"])] := by
    simp only [compute_all_fixes, List.mergeSort_singleton]
    decide
  exact ⟨h, compute_all_fixes_safe _ _ _ h⟩

/-- C1 counterexample: a change notification whose version equals the
stored version (v = V = 3) is NOT discarded — the handler replaces the
stored tree, publishes diagnostics and returns `Some(())`, refuting the
claim that every change with v ≤ V is a silent no-op. -/
theorem equal_version_change_applied :
    Backend.on_change errBackend sampleStore ⟨"file:///a.js", 3, [⟨"new"⟩]⟩
      = .result [("file:///a.js", ⟨3, ⟨"new", "js"⟩⟩)]
          [Effect.logMessage .log "Parsing changed doc.",
           Effect.logMessage .log "Publishing diagnostics.",
           Effect.publishDiagnostics "file:///a.js" [] (some 3)]
          (some ()) ∧
    ([("file:///a.js", (⟨3, ⟨"new", "js"⟩⟩ : VersionedAst))] : Store) ≠ sampleStore := by
  constructor
  · decide
  · decide

/-- C1 (amended): a change whose version is strictly below the stored
version is discarded as a silent no-op — the store is unchanged, only the
parse log is emitted, nothing is returned and no diagnostics are
published — and across any didChange the stored version of every document
never decreases; a change whose version equals the stored version is,
however, accepted and replaces the entry. -/
theorem change_stale_noop_and_version_monotone :
    (∀ (b : Backend) (st : Store) (uri : String) (v : Int) (c : ContentChange)
        (cs : List ContentChange) (vA : VersionedAst),
      storeGet st uri = some vA → v < vA.version →
      Backend.on_change b st ⟨uri, v, c :: cs⟩
        = .result st [Effect.logMessage .log "Parsing changed doc."] none)
    ∧ (∀ (b : Backend) (st : Store) (p : ChangeParams) (st' : Store)
          (effs : List Effect) (r : Option Unit),
        Backend.on_change b st p = .result st' effs r →
        ∀ (u : String) (vA : VersionedAst), storeGet st u = some vA →
          ∃ vA', storeGet st' u = some vA' ∧ vA.version ≤ vA'.version) := by
  constructor
  · intro b st uri v c cs vA hget hv
    unfold Backend.on_change
    cases hl : b.inferLang uri with
    | none => rfl
    | some lang => simp [hget, if_pos hv]
  · intro b st p st' effs r h u vA hget
    obtain ⟨uri, version, changes⟩ := p
    cases changes with
    | nil => exact absurd h (by unfold Backend.on_change; simp)
    | cons c cs =>
      cases hl : b.inferLang uri with
      | none =>
        rw [on_change_cons_nolang hl] at h
        simp only [ChangeResult.result.injEq] at h
        obtain ⟨rfl, -, -⟩ := h
        exact ⟨vA, hget, le_refl _⟩
      | some lang =>
        cases hg : storeGet st uri with
        | none =>
          rw [on_change_cons_unknown hl hg] at h
          simp only [ChangeResult.result.injEq] at h
          obtain ⟨rfl, -, -⟩ := h
          exact ⟨vA, hget, le_refl _⟩
        | some versioned =>
          by_cases hv : versioned.version > version
          · rw [on_change_cons_stale hl hg hv] at h
            simp only [ChangeResult.result.injEq] at h
            obtain ⟨rfl, -, -⟩ := h
            exact ⟨vA, hget, le_refl _⟩
          · rw [on_change_cons_apply hl hg hv] at h
            simp only [ChangeResult.result.injEq] at h
            obtain ⟨rfl, -, -⟩ := h
            rw [storeGet_storeInsert]
            by_cases hu : u = uri
            · subst hu
              rw [hget] at hg
              obtain rfl : vA = versioned := by injection hg
              exact ⟨⟨version, ⟨c.text, lang⟩⟩, if_pos rfl,
                (by omega : vA.version ≤ version)⟩
            · exact ⟨vA, by rw [if_neg hu]; exact hget, le_refl _⟩

/-- Witness for C1 (amended): a version-2 change against a version-3 entry
is a silent no-op, and after the equal-version change the stored version
has not decreased. -/
theorem change_stale_noop_and_version_monotone_witness :
    Backend.on_change errBackend sampleStore ⟨"file:///a.js", 2, [⟨"new"⟩]⟩
      = .result sampleStore [Effect.logMessage .log "Parsing changed doc."] none ∧
    (∃ vA', storeGet [("file:///a.js", (⟨3, ⟨"new", "js"⟩⟩ : VersionedAst))]
        "file:///a.js" = some vA' ∧ (3 : Int) ≤ vA'.version) :=
  ⟨change_stale_noop_and_version_monotone.1 errBackend sampleStore "file:///a.js" 2
      ⟨"new"⟩ [] ⟨3, ⟨"old", "js"⟩⟩ (by decide) (by decide),
   change_stale_noop_and_version_monotone.2 errBackend sampleStore
      ⟨"file:///a.js", 3, [⟨"new"⟩]⟩
      [("file:///a.js", ⟨3, ⟨"new", "js"⟩⟩)]
      [Effect.logMessage .log "Parsing changed doc.",
       Effect.logMessage .log "Publishing diagnostics.",
       Effect.publishDiagnostics "file:///a.js" [] (some 3)]
      (some ()) (by decide) "file:///a.js" ⟨3, ⟨"old", "js"⟩⟩ (by decide)⟩

/-- C4 counterexample: with a decodable snapshot, an inferable language and
a successful diagnostics computation that accepts zero edits, the command
does NOT stop at a log-level no-actionable-fix report — it sends the client
a workspace edit (with an absent change set) and logs nothing about fixes,
refuting the claim. -/
theorem no_accepted_edit_still_applies_edit :
    Backend.get_diagnostics okBackendNoFix "file:///a.js" ⟨1, ⟨"txt", "js"⟩⟩
      = some [noFixDiag] ∧
    Backend.on_apply_all_fix_impl okBackendNoFix (.snapshot "file:///a.js" 1 "txt")
      = .ok ⟨none⟩ ∧
    Backend.on_apply_all_fix okBackendNoFix APPLY_ALL_FIXES
        [.snapshot "file:///a.js" 1 "txt"]
      = ([Effect.logMessage .info "Running ExecuteCommand ast-grep.applyAllFixes",
          Effect.applyEdit ⟨none⟩], none) := by
  have hdiag : Backend.get_diagnostics okBackendNoFix "file:///a.js"
      ⟨1, ⟨"txt", "js"⟩⟩ = some [noFixDiag] := by decide
  have hfix : compute_all_fixes "file:///a.js" [noFixDiag] = none := by
    simp only [compute_all_fixes, List.mergeSort_singleton]
    decide
  have himpl : Backend.on_apply_all_fix_impl okBackendNoFix
      (.snapshot "file:///a.js" 1 "txt") = .ok ⟨none⟩ := by
    simp only [on_apply_all_fix_impl_snapshot okBackendNoFix "file:///a.js" 1 "txt"
      "js" (by decide), hdiag, hfix]
  refine ⟨hdiag, himpl, ?_⟩
  rw [on_apply_all_fix_cons_ok himpl]
  rfl

/-- C4 (amended): the no-actionable-fix outcome — a log-level-only report
with no workspace edit issued — occurs exactly when the diagnostics
computation itself yields nothing; when diagnostics computation succeeds
but zero edits are accepted, the command instead issues a workspace edit
with an absent change set to the client and reports nothing about fixes. -/
theorem apply_all_fix_outcomes :
    (∀ (b : Backend) (cmd uri : String) (ver : Int) (text : String)
        (rest : List Arg) (lang : Lang) (diags : List Diagnostic),
      b.inferLang uri = some lang →
      b.get_diagnostics uri ⟨ver, ⟨text, lang⟩⟩ = some diags →
      compute_all_fixes uri diags = none →
      Backend.on_apply_all_fix b cmd (.snapshot uri ver text :: rest)
        = ([Effect.logMessage .info ("Running ExecuteCommand " ++ cmd),
            Effect.applyEdit ⟨none⟩], none))
    ∧ (∀ (b : Backend) (cmd uri : String) (ver : Int) (text : String)
        (rest : List Arg) (lang : Lang),
      b.inferLang uri = some lang →
      b.get_diagnostics uri ⟨ver, ⟨text, lang⟩⟩ = none →
      Backend.on_apply_all_fix b cmd (.snapshot uri ver text :: rest)
        = ([Effect.logMessage .info ("Running ExecuteCommand " ++ cmd),
            Effect.logMessage .log "No actionable fix"], none)) := by
  constructor
  · intro b cmd uri ver text rest lang diags hl hd hf
    have himpl : Backend.on_apply_all_fix_impl b (.snapshot uri ver text)
        = .ok ⟨none⟩ := by
      simp only [on_apply_all_fix_impl_snapshot b uri ver text lang hl, hd, hf]
    rw [on_apply_all_fix_cons_ok himpl]
  · intro b cmd uri ver text rest lang hl hd
    have himpl : Backend.on_apply_all_fix_impl b (.snapshot uri ver text)
        = .error .noActionableFix := by
      simp only [on_apply_all_fix_impl_snapshot b uri ver text lang hl, hd]
    rw [on_apply_all_fix_cons_err himpl]
    rfl

/-- Witness for C4 (amended) at concrete backends: one where diagnostics
succeed with no accepted edit, one where diagnostics computation fails. -/
theorem apply_all_fix_outcomes_witness :
    Backend.on_apply_all_fix okBackendNoFix APPLY_ALL_FIXES
        [.snapshot "file:///a.js" 1 "txt"]
      = ([Effect.logMessage .info ("Running ExecuteCommand " ++ APPLY_ALL_FIXES),
          Effect.applyEdit ⟨none⟩], none) ∧
    Backend.on_apply_all_fix errBackend APPLY_ALL_FIXES
        [.snapshot "file:///a.js" 1 "txt"]
      = ([Effect.logMessage .info ("Running ExecuteCommand " ++ APPLY_ALL_FIXES),
          Effect.logMessage .log "No actionable fix"], none) :=
  ⟨apply_all_fix_outcomes.1 okBackendNoFix APPLY_ALL_FIXES "file:///a.js" 1 "txt"
      [] "js" [noFixDiag] (by decide) (by decide)
      (by simp only [compute_all_fixes, List.mergeSort_singleton]; decide),
   apply_all_fix_outcomes.2 errBackend APPLY_ALL_FIXES "file:///a.js" 1 "txt"
      [] "js" (by decide) (by decide)⟩

/-- C5: for every buffer state and in-bounds edit, `accept_edit` computes
the start and old-end `(row, column)` positions on the pre-mutation buffer,
splices the storage units, computes the new-end position on the
post-mutation buffer, and returns the descriptor with byte offsets
`start = position`, `old end = position + deleted_length`,
`new end = position + 2·|inserted_units|`, where each position is the
row/column walk over decoded characters that increments the row and resets
the column at each line terminator and otherwise increments the column. -/
theorem accept_edit_descriptor (w : Wrapper) (e : Edit)
    (h : e.position + e.deleted_length ≤ 2 * w.inner.length) :
    Wrapper.accept_edit w e =
      (⟨w.inner.take (e.position / 2) ++ e.inserted_text
          ++ w.inner.drop ((e.position + e.deleted_length) / 2)⟩,
       ⟨e.position, e.position + e.deleted_length,
        e.position + 2 * e.inserted_text.length,
        rowColSpec ((decodeUtf16 w.inner).take (e.position / 2)),
        rowColSpec ((decodeUtf16 w.inner).take ((e.position + e.deleted_length) / 2)),
        rowColSpec ((decodeUtf16 (w.inner.take (e.position / 2) ++ e.inserted_text
            ++ w.inner.drop ((e.position + e.deleted_length) / 2))).take
          ((e.position + 2 * e.inserted_text.length) / 2))⟩) := by
  simp only [Wrapper.accept_edit, pos_for_byte_offset, posLoop_eq_foldl, rowColSpec,
    Nat.mul_comm]

/-- Witness for C5 at a concrete two-unit buffer, replacing its second unit. -/
theorem accept_edit_descriptor_witness :
    Wrapper.accept_edit ⟨[104, 105]⟩ ⟨2, 2, [88]⟩ =
      (⟨[104, 105].take (2 / 2) ++ [88] ++ [104, 105].drop ((2 + 2) / 2)⟩,
       ⟨2, 2 + 2, 2 + 2 * [88].length,
        rowColSpec ((decodeUtf16 [104, 105]).take (2 / 2)),
        rowColSpec ((decodeUtf16 [104, 105]).take ((2 + 2) / 2)),
        rowColSpec ((decodeUtf16 ([104, 105].take (2 / 2) ++ [88]
            ++ [104, 105].drop ((2 + 2) / 2))).take ((2 + 2 * [88].length) / 2))⟩) :=
  accept_edit_descriptor ⟨[104, 105]⟩ ⟨2, 2, [88]⟩ (by decide)

/-- C7 counterexample: `decode(encode(units))` is not the identity on
arbitrary storage-unit sequences — an unpaired surrogate is lossily
replaced by U+FFFD, so re-encoding does not restore it. -/
theorem lone_surrogate_roundtrip_fails :
    Wrapper.decode_str (Wrapper.encode_bytes [0xD800]) ≠ [0xD800] := by
  decide

/-- C7 (amended): `encode(decode(text))` equals `text` for every text
(every sequence of Unicode scalar values, multi-unit characters and line
terminators included), and `decode(encode(units))` equals `units` for every
well-formed UTF-16 unit sequence; sequences with unpaired surrogates are
excluded, as `encode_bytes` is lossy on them. -/
theorem utf16_roundtrips :
    (∀ text : List Nat, (∀ c ∈ text, ValidCp c) →
      Wrapper.encode_bytes (Wrapper.decode_str text) = text)
    ∧ (∀ units : List Nat, wellFormedUtf16 units = true →
      Wrapper.decode_str (Wrapper.encode_bytes units) = units) :=
  ⟨utf16_text_roundtrip,
   fun units h => utf16_units_roundtrip_aux units.length units (le_refl _) h⟩

/-- Witness for C7 (amended): a text with an astral character and a line
terminator round-trips, and the corresponding surrogate-pair unit sequence
round-trips the other way. -/
theorem utf16_roundtrips_witness :
    Wrapper.encode_bytes (Wrapper.decode_str [104, 0x1F600, 10])
      = [104, 0x1F600, 10] ∧
    Wrapper.decode_str (Wrapper.encode_bytes [0xD83D, 0xDE00, 10])
      = [0xD83D, 0xDE00, 10] :=
  ⟨utf16_roundtrips.1 [104, 0x1F600, 10] (by decide),
   utf16_roundtrips.2 [0xD83D, 0xDE00, 10] (by decide)⟩

end AstGrepLsp
